import Mathlib

/-
Shallow embedding of the streaming order-book side maintained by the
`websocket` package of go_kraken (file `orderbook`-side code: types
`orderBookLevel`, `byPrice`, `OrderBookSide` and the functions
`newOrderBookLevels`, `newOrderBookSide`, `stringFixed`, `applyUpdate`,
`applyUpdates`, `Get`, `checksum`).

Modelling conventions, fixed once for the whole file:

- `decimal.Big` values (exact arbitrary-precision decimals) are embedded
  as rationals `ℚ`.  `UnmarshalText` parses the decimal text exactly; the
  context attached by `decimal.WithPrecision` caps significant digits of
  arithmetic results, and no arithmetic is performed on the parsed prices,
  so parsing is value-exact here.
- `fmt.Sprintf` with a fixed-point verb (the Go `stringFixed` helper
  builds the format string "%.<precision>f") renders the value rounded to
  `precision` fractional digits, rounding to nearest with ties to even
  (the default decimal.Big context mode); `stringFixed` below implements
  exactly that rendering for non-negative values and prefixes "-" for
  negative ones.
- An `OrderBookItem` (the wire update, declared elsewhere in the
  websocket package) carries a price text and a volume text.  A field is
  embedded as `some q` when the text parses to the exact value `q`, and
  as `none` when parsing it fails (`Volume.Float64` resp. price
  `UnmarshalText` would return an error).  The Go test `flValue == 0`
  compares the float64 conversion with zero; for an exactly-zero volume
  the conversion is exactly 0, so the test is embedded as `q = 0`.
- The Go map `map[string]orderBookLevel` is embedded as an association
  list with unique keys; `delete` removes every binding of the key,
  insertion replaces in place or appends.
- `sort.Sort` guarantees some permutation ordered by the comparator; the
  embedding uses insertion sort with the corresponding total order.
- Mutexes are dropped: the embedding is sequential, each operation is a
  pure function of the state.
- The Go slice expressions `levels[o.depth:]` / `levels[:o.depth]` in
  `applyUpdates` are out of range when fewer than `depth` levels exist
  (with one level and depth 2 the slice low bound 2 exceeds the
  capacity 1, a runtime panic); the embedding makes that branch an
  explicit `outOfRange` outcome of the batch result.
-/

namespace GoKraken

/-- Round the fraction `num / den` (with `den` positive) to the nearest
integer, ties to even — the default decimal rounding mode used when
formatting a decimal.Big.  Written on the numerator and denominator so
that it evaluates by kernel reduction: `f` is the floor (floor division
by the positive denominator) and `r2` is `2 * den` times the fractional
part, compared against `den` to decide the direction of rounding. -/
def roundHalfEven (num : ℤ) (den : ℕ) : ℤ :=
  let d : ℤ := (den : ℤ)
  let f : ℤ := Int.fdiv num d
  let r2 : ℤ := 2 * (num - f * d)
  if r2 < d then f
  else if d < r2 then f + 1
  else if f % 2 = 0 then f else f + 1

/-- Left-pad a string with the character '0' up to length `p`. -/
def padLeftZeros (p : ℕ) (s : String) : String :=
  String.mk (List.replicate (p - s.length) '0') ++ s

/-- Render a non-negative scaled integer `n` (the value times `10 ^ p`)
with `p` fractional digits, as Go's fixed-point formatting does. -/
def natFixed (n : ℕ) (p : ℕ) : String :=
  if p = 0 then toString n
  else toString (n / 10 ^ p) ++ "." ++ padLeftZeros p (toString (n % 10 ^ p))

/-- Go source:

    func stringFixed(big *decimal.Big, precision int) string {
        fmtStr := "%." + strconv.Itoa(precision) + "f"
        return fmt.Sprintf(fmtStr, big)
    }

Fixed-point rendering of the exact value at `precision` fractional
digits, rounding half to even: the value times `10 ^ precision` is the
fraction `num * 10 ^ precision / den`, rounded to the integer `scaled`
and rendered with the decimal point inserted `precision` digits from
the right. -/
def stringFixed (big : ℚ) (precision : ℕ) : String :=
  let scaled : ℤ := roundHalfEven (big.num * ((10 ^ precision : ℕ) : ℤ)) big.den
  if scaled < 0 then "-" ++ natFixed scaled.natAbs precision
  else natFixed scaled.toNat precision

/-- Go source: type orderBookLevel struct { Price, Volume *decimal.Big }. -/
structure orderBookLevel where
  Price : ℚ
  Volume : ℚ
deriving DecidableEq

/-- Comparator of `byPrice` combined with `sort.Reverse`: with `asc`
(ask side) levels are ordered by ascending price, otherwise descending. -/
def levelLe (asc : Bool) (a b : orderBookLevel) : Prop :=
  if asc then a.Price ≤ b.Price else b.Price ≤ a.Price

instance levelLeDecidable (asc : Bool) : DecidableRel (levelLe asc) := fun a b =>
  decidable_of_iff
    (if asc then a.Price.num * b.Price.den ≤ b.Price.num * a.Price.den
     else b.Price.num * a.Price.den ≤ a.Price.num * b.Price.den)
    (by by_cases h : asc <;> simp [levelLe, h, Rat.le_def])

/-- Go source:

    func newOrderBookLevels(m map[string]orderBookLevel, asc bool) []orderBookLevel {
        result := make([]orderBookLevel, 0)
        for _, value := range m { result = append(result, value) }
        if asc { sort.Sort(byPrice(result)) } else { sort.Sort(sort.Reverse(byPrice(result))) }
        return result
    }

The map values, sorted by the side comparator. -/
def newOrderBookLevels (m : List (String × orderBookLevel)) (asc : Bool) :
    List orderBookLevel :=
  List.insertionSort (levelLe asc) (m.map Prod.snd)

/-- Go source: the OrderBookSide struct (mutex dropped, see header). -/
structure OrderBookSide where
  m : List (String × orderBookLevel)
  sorted : List orderBookLevel
  depth : ℕ
  pricePrecision : ℕ
  volumePrecision : ℕ
  isAsk : Bool
deriving DecidableEq

/-- Go source: newOrderBookSide. -/
def newOrderBookSide (depth pricePrecision volumePrecision : ℕ) (isAsk : Bool) :
    OrderBookSide :=
  { m := [], sorted := [], depth := depth, pricePrecision := pricePrecision,
    volumePrecision := volumePrecision, isAsk := isAsk }

/-- Modelled from the spec: `OrderBookItem` is declared elsewhere in the
websocket package; per spec section 6 an update carries a price text and
a volume text, each an exact decimal.  A field is `some q` when its text
parses to the exact value `q`, `none` when parsing fails. -/
structure OrderBookItem where
  Price : Option ℚ
  Volume : Option ℚ
deriving DecidableEq

/-- Go map deletion `delete(m, k)`: drop the binding of key `k`. -/
def eraseKey (k : String) (m : List (String × orderBookLevel)) :
    List (String × orderBookLevel) :=
  m.filter (fun kv => kv.1 ≠ k)

/-- Go map insertion `m[k] = v`: replace the binding in place when the
key is present, append it otherwise. -/
def insertKey (k : String) (v : orderBookLevel) :
    List (String × orderBookLevel) → List (String × orderBookLevel)
  | [] => [(k, v)]
  | kv :: rest => if kv.1 = k then (k, v) :: rest else kv :: insertKey k v rest

/-- Go map lookup `m[k]`: the value bound to `k`, if any. -/
def lookupKey (k : String) : List (String × orderBookLevel) → Option orderBookLevel
  | [] => none
  | kv :: rest => if kv.1 = k then some kv.2 else lookupKey k rest

/-- Go source:

    func (o *OrderBookSide) applyUpdate(upd OrderBookItem) error {
        flValue, err := upd.Volume.Float64()
        if err != nil { return err }
        price := decimal.WithPrecision(o.pricePrecision)
        err = price.UnmarshalText([]byte(upd.Price.String()))
        if err != nil { return err }
        key := stringFixed(price, o.pricePrecision)
        o.mx.Lock()
        if flValue == 0 {
            delete(o.m, key)
        } else {
            v := &decimal.Big{}
            err = v.UnmarshalText([]byte(upd.Price.String()))
            if err != nil { return err }
            o.m[key] = orderBookLevel{Price: price, Volume: v}
        }
        o.mx.Unlock()
        return nil
    }

Note that the stored Volume is parsed from `upd.Price.String()` — the
price text, not the volume text — so the level's Volume field holds the
price value.  The inner parse re-reads the very text that already parsed
successfully a few lines above, so its error branch cannot fire and the
embedding records a plain insertion of `{Price: price, Volume: price}`. -/
def applyUpdate (o : OrderBookSide) (upd : OrderBookItem) :
    Except String OrderBookSide :=
  match upd.Volume with
  | none => .error "invalid volume"
  | some flValue =>
    match upd.Price with
    | none => .error "invalid price"
    | some price =>
      let key := stringFixed price o.pricePrecision
      if flValue = 0 then .ok { o with m := eraseKey key o.m }
      else .ok { o with m := insertKey key ⟨price, price⟩ o.m }

instance exceptDecEq : DecidableEq (Except String OrderBookSide) := fun a b =>
  match a, b with
  | .ok x, .ok y =>
    decidable_of_iff (x = y) ⟨fun h => by rw [h], fun h => Except.ok.inj h⟩
  | .error x, .error y =>
    decidable_of_iff (x = y) ⟨fun h => by rw [h], fun h => Except.error.inj h⟩
  | .ok _, .error _ => isFalse (fun h => Except.noConfusion h)
  | .error _, .ok _ => isFalse (fun h => Except.noConfusion h)

/-- The update loop at the top of `applyUpdates`: thread the side through
`applyUpdate` over the batch, stopping at the first error.  The returned
state is the partially updated side at the moment the loop stops. -/
def applyLoop (o : OrderBookSide) : List OrderBookItem → OrderBookSide × Option String
  | [] => (o, none)
  | upd :: rest =>
    match applyUpdate o upd with
    | .ok o1 => applyLoop o1 rest
    | .error e => (o, some e)

/-- Outcome of a batch application: normal completion, an update error
returned after partial application, or the out-of-range slice of the
resort step (a runtime panic in Go, see header). -/
inductive BatchResult where
  | ok (o : OrderBookSide)
  | parseError (o : OrderBookSide) (e : String)
  | outOfRange (o : OrderBookSide)
deriving DecidableEq

/-- Go source:

    func (o *OrderBookSide) applyUpdates(updates []OrderBookItem) error {
        for i := range updates {
            if err := o.applyUpdate(updates[i]); err != nil { return err }
        }
        o.mx.Lock()
        levels := newOrderBookLevels(o.m, o.isAsk)
        for _, level := range levels[o.depth:] {
            delete(o.m, stringFixed(level.Price, o.pricePrecision))
        }
        o.sorted = levels[:o.depth]
        o.mx.Unlock()
        return nil
    }

After all updates succeed the current levels are sorted; every level
past index `depth` is deleted from the map and the first `depth` levels
become the visible view.  The slices are taken unconditionally, so when
fewer than `depth` levels exist the computation is out of range. -/
def applyUpdates (o : OrderBookSide) (updates : List OrderBookItem) : BatchResult :=
  match applyLoop o updates with
  | (o1, some e) => .parseError o1 e
  | (o1, none) =>
    let levels := newOrderBookLevels o1.m o1.isAsk
    if o1.depth ≤ levels.length then
      let evicted := levels.drop o1.depth
      let m1 := evicted.foldl
        (fun m level => eraseKey (stringFixed level.Price o1.pricePrecision) m) o1.m
      .ok { o1 with m := m1, sorted := levels.take o1.depth }
    else .outOfRange o1

/-- Go source:

    func (o *OrderBookSide) Get(price *decimal.Big) (*decimal.Big, bool) {
        key := stringFixed(price, o.pricePrecision)
        level, ok := o.m[key]
        if !ok { return decimal.New(0, 0), ok }
        return level.Volume, ok
    }

Lookup by the canonical key; zero-volume sentinel when absent. -/
def Get (o : OrderBookSide) (price : ℚ) : ℚ × Bool :=
  match lookupKey (stringFixed price o.pricePrecision) o.m with
  | none => (0, false)
  | some level => (level.Volume, true)

/-- Replace the first '.' with nothing: strings.Replace(s, ".", "", 1). -/
def removeDot : List Char → List Char
  | [] => []
  | c :: cs => if c = '.' then cs else c :: removeDot cs

/-- Strip leading '0' characters: strings.TrimLeft(s, "0"). -/
def trimZeros (s : List Char) : List Char :=
  s.dropWhile (fun c => c = '0')

/-- Go source:

    func (o *OrderBookSide) checksum() []byte {
        var str bytes.Buffer
        for _, level := range o.sorted {
            price := stringFixed(level.Price, o.pricePrecision)
            price = strings.Replace(price, ".", "", 1)
            price = strings.TrimLeft(price, "0")
            str.WriteString(price)
            volume := stringFixed(level.Volume, o.volumePrecision)
            volume = strings.Replace(volume, ".", "", 1)
            volume = strings.TrimLeft(volume, "0")
            str.WriteString(volume)
        }
        return str.Bytes()
    }

The canonical byte buffer, embedded as the list of characters written. -/
def checksum (o : OrderBookSide) : List Char :=
  o.sorted.foldl
    (fun buf level =>
      buf ++ trimZeros (removeDot (stringFixed level.Price o.pricePrecision).data)
          ++ trimZeros (removeDot (stringFixed level.Volume o.volumePrecision).data))
    []

/-- The checksum contribution of one level, as the spec words it: format
the price at the price precision, remove the decimal point, strip
leading zeros; then the same for the volume at the volume precision. -/
def checksumEntry (pp vp : ℕ) (level : orderBookLevel) : List Char :=
  trimZeros (removeDot (stringFixed level.Price pp).data)
    ++ trimZeros (removeDot (stringFixed level.Volume vp).data)

/-- The checksum as the spec describes it: the per-level contributions
concatenated in view order with no separators. -/
def checksumCanonical (o : OrderBookSide) : List Char :=
  (o.sorted.map (checksumEntry o.pricePrecision o.volumePrecision)).flatten

/-! Association-list (Go map) lemmas. -/

theorem lookupKey_eraseKey_self (k : String) (m : List (String × orderBookLevel)) :
    lookupKey k (eraseKey k m) = none := by
  induction m with
  | nil => rfl
  | cons kv rest ih =>
    by_cases h : kv.1 = k
    · simp [eraseKey, List.filter, h] at ih ⊢
      exact ih
    · simp [eraseKey, List.filter, h, lookupKey] at ih ⊢
      exact ih

theorem eraseKey_of_lookup_none (k : String) (m : List (String × orderBookLevel))
    (h : lookupKey k m = none) : eraseKey k m = m := by
  induction m with
  | nil => rfl
  | cons kv rest ih =>
    by_cases hk : kv.1 = k
    · simp [lookupKey, hk] at h
    · simp [lookupKey, hk] at h
      simp [eraseKey, List.filter, hk] at ih ⊢
      exact ih h

theorem lookupKey_eraseKey (k k1 : String) (m : List (String × orderBookLevel)) :
    lookupKey k (eraseKey k1 m) = if k1 = k then none else lookupKey k m := by
  induction m with
  | nil => simp [eraseKey, lookupKey]
  | cons kv rest ih =>
    by_cases hk : kv.1 = k1
    · have h1 : eraseKey k1 (kv :: rest) = eraseKey k1 rest := by
        simp [eraseKey, List.filter_cons, hk]
      rw [h1, ih]
      by_cases hq : k1 = k
      · simp [hq]
      · have hkk : kv.1 ≠ k := fun hh => hq (hk.symm.trans hh)
        simp [hq, lookupKey, hkk]
    · have h1 : eraseKey k1 (kv :: rest) = kv :: eraseKey k1 rest := by
        simp [eraseKey, List.filter_cons, hk]
      rw [h1]
      by_cases hkk : kv.1 = k
      · have hq : ¬ k1 = k := fun hh => hk (hkk.trans hh.symm)
        simp [lookupKey, hkk, hq]
      · simp only [lookupKey, if_neg hkk]
        exact ih

theorem lookupKey_insertKey (k k1 : String) (v : orderBookLevel)
    (m : List (String × orderBookLevel)) :
    lookupKey k (insertKey k1 v m) = if k1 = k then some v else lookupKey k m := by
  induction m with
  | nil => simp [insertKey, lookupKey]
  | cons kv rest ih =>
    by_cases hk : kv.1 = k1
    · by_cases hkk : k1 = k
      · simp [insertKey, hk, lookupKey, hkk]
      · have : kv.1 ≠ k := by rw [hk]; exact hkk
        simp [insertKey, hk, lookupKey, hkk, this]
    · simp [insertKey, hk, lookupKey]
      by_cases hkk : kv.1 = k
      · have : k1 ≠ k := by intro h; rw [h] at hk; exact hk hkk
        simp [hkk, this]
      · simp [hkk, ih]

theorem mem_insertKey (k : String) (v : orderBookLevel)
    (m : List (String × orderBookLevel)) (kv : String × orderBookLevel)
    (h : kv ∈ insertKey k v m) : kv = (k, v) ∨ kv ∈ m := by
  induction m with
  | nil =>
    simp [insertKey] at h
    exact Or.inl h
  | cons kv0 rest ih =>
    by_cases hk : kv0.1 = k
    · simp [insertKey, hk] at h
      rcases h with h | h
      · exact Or.inl h
      · exact Or.inr (List.mem_cons_of_mem _ h)
    · simp [insertKey, hk] at h
      rcases h with h | h
      · exact Or.inr (by simp [h])
      · rcases ih h with h1 | h1
        · exact Or.inl h1
        · exact Or.inr (List.mem_cons_of_mem _ h1)

theorem mem_eraseKey (k : String) (m : List (String × orderBookLevel))
    (kv : String × orderBookLevel) :
    kv ∈ eraseKey k m ↔ kv ∈ m ∧ kv.1 ≠ k := by
  simp [eraseKey, List.mem_filter]

theorem eraseKey_sublist (k : String) (m : List (String × orderBookLevel)) :
    (eraseKey k m).Sublist m :=
  List.filter_sublist m

/-! Claim C7: a zero-volume update deletes the canonical key. -/

/-- C7: applying an update with volume 0 succeeds, removes the price's
canonical key from the levels table (a no-op when the key is absent),
and a subsequent Get on that price returns the zero sentinel with
found = false. -/
theorem applyUpdate_zero_volume_removes (o : OrderBookSide) (p : ℚ) :
    ∃ o1, applyUpdate o ⟨some p, some 0⟩ = .ok o1 ∧
      o1.m = eraseKey (stringFixed p o.pricePrecision) o.m ∧
      lookupKey (stringFixed p o.pricePrecision) o1.m = none ∧
      Get o1 p = (0, false) ∧
      (lookupKey (stringFixed p o.pricePrecision) o.m = none → o1.m = o.m) := by
  refine ⟨{ o with m := eraseKey (stringFixed p o.pricePrecision) o.m },
    rfl, rfl, lookupKey_eraseKey_self _ _, ?_, ?_⟩
  · unfold Get
    simp [lookupKey_eraseKey_self]
  · intro h
    simpa using eraseKey_of_lookup_none _ _ h

/-- Witness for C7 at a concrete side and price: the side is empty, so
the removed key is absent and the no-op conclusion is exercised. -/
theorem applyUpdate_zero_volume_removes_witness :
    lookupKey (stringFixed 1 (newOrderBookSide 1 2 2 true).pricePrecision)
        (newOrderBookSide 1 2 2 true).m = none ∧
      ∃ o1, applyUpdate (newOrderBookSide 1 2 2 true) ⟨some 1, some 0⟩ = .ok o1 ∧
        o1.m = eraseKey (stringFixed 1 (newOrderBookSide 1 2 2 true).pricePrecision)
          (newOrderBookSide 1 2 2 true).m ∧
        lookupKey (stringFixed 1 (newOrderBookSide 1 2 2 true).pricePrecision) o1.m = none ∧
        Get o1 1 = (0, false) ∧
        (lookupKey (stringFixed 1 (newOrderBookSide 1 2 2 true).pricePrecision)
            (newOrderBookSide 1 2 2 true).m = none → o1.m = (newOrderBookSide 1 2 2 true).m) :=
  ⟨by decide, applyUpdate_zero_volume_removes (newOrderBookSide 1 2 2 true) 1⟩

/-! Claim C1: the stored volume is the re-parsed price, not the supplied
volume. -/

/-- C1 evaluation: on a fresh side with price precision 2, the update
(price 3/2, volume 2) is stored with Volume = 3/2 — the price — because
the source unmarshals `upd.Price.String()` into the volume field, and a
subsequent Get on 3/2 returns 3/2, not the supplied volume 2. -/
theorem Get_returns_price_not_supplied_volume :
    ∃ o1, applyUpdate (newOrderBookSide 1 2 2 true) ⟨some (mkRat 3 2), some 2⟩ = .ok o1 ∧
      Get o1 (mkRat 3 2) = (mkRat 3 2, true) ∧ mkRat 3 2 ≠ 2 :=
  ⟨⟨[("1.50", ⟨mkRat 3 2, mkRat 3 2⟩)], [], 1, 2, 2, true⟩, by decide, by decide, by decide⟩

/-! Claim C2: the resort step is out of range below depth. -/

/-- C2 evaluation: a batch whose single update parses, applied to a
fresh side of depth 2, reaches the out-of-range branch of the resort
step (in Go, `levels[2:]` on a one-element slice of capacity 1 panics)
instead of completing normally. -/
theorem applyUpdates_out_of_range_below_depth :
    (∀ u ∈ [(⟨some 1, some 5⟩ : OrderBookItem)], u.Price.isSome ∧ u.Volume.isSome) ∧
      applyUpdates (newOrderBookSide 2 2 2 true) [⟨some 1, some 5⟩] =
        .outOfRange ⟨[("1.00", ⟨1, 1⟩)], [], 2, 2, 2, true⟩ := by
  constructor
  · decide
  · decide

/-! Claim C8: duplicate prices in a batch collapse to one level, but the
retained volume is the price. -/

/-- C8 evaluation: the batch [(1, 2), (1, 3)] on a fresh depth-1 side
leaves exactly one level at price 1, but its volume is 1 — the price —
not the later update's volume 3 (the same line-89 slip as in C1). -/
theorem duplicate_price_single_level_volume_is_price :
    ∃ o1, applyUpdates (newOrderBookSide 1 2 2 true) [⟨some 1, some 2⟩, ⟨some 1, some 3⟩] =
        .ok o1 ∧
      o1.m = [("1.00", ⟨1, 1⟩)] ∧ Get o1 1 = (1, true) ∧ (1 : ℚ) ≠ 3 :=
  ⟨⟨[("1.00", ⟨1, 1⟩)], [⟨1, 1⟩], 1, 2, 2, true⟩, by decide, by decide, by decide, by decide⟩

/-! Claim C4: checksum canonicalization. -/

theorem foldl_append2_eq_flatten {α : Type} (f g : α → List Char) (l : List α)
    (init : List Char) :
    l.foldl (fun buf x => buf ++ f x ++ g x) init =
      init ++ (l.map (fun x => f x ++ g x)).flatten := by
  induction l generalizing init with
  | nil => simp
  | cons x rest ih =>
    rw [List.foldl_cons, ih]
    simp [List.append_assoc]

/-- C4 counterexample: on the reachable book built by applying the single
update (price 1/200 = 0.00500, volume 7) at price precision 5 and volume
precision 1, the level's volume contribution is empty, so the checksum
buffer is exactly the price contribution — and it is "500", not the "5"
the claim predicts. -/
theorem checksum_price_contribution_counterexample :
    ∃ oC, applyUpdates (newOrderBookSide 1 5 1 true) [⟨some (mkRat 1 200), some 7⟩] = .ok oC ∧
      checksum oC = "500".data ∧ "500".data ≠ "5".data :=
  ⟨⟨[("0.00500", ⟨mkRat 1 200, mkRat 1 200⟩)], [⟨mkRat 1 200, mkRat 1 200⟩], 1, 5, 1, true⟩,
    by decide, by decide, by decide⟩

/-- C4 amended: checksum concatenates, per level of the view in order and
with no separators, the price formatted at the price precision with the
decimal point removed and leading zeros stripped, then the volume
likewise at the volume precision; in particular the price 0.00500 at
precision 5 contributes the string "500" (not "5"). -/
theorem checksum_eq_canonical_concat :
    (∀ o : OrderBookSide, checksum o = checksumCanonical o) ∧
      trimZeros (removeDot (stringFixed (mkRat 1 200) 5).data) = "500".data := by
  constructor
  · intro o
    have h := foldl_append2_eq_flatten
      (fun level => trimZeros (removeDot (stringFixed level.Price o.pricePrecision).data))
      (fun level => trimZeros (removeDot (stringFixed level.Volume o.volumePrecision).data))
      o.sorted []
    simpa [checksum, checksumCanonical, checksumEntry] using h
  · decide

/-! Phase-one structure of `applyUpdates`: the update loop as a pure fold. -/

/-- Both texts of the update parse (neither `Volume.Float64` nor the
price `UnmarshalText` would return an error). -/
def parses (u : OrderBookItem) : Prop :=
  u.Volume.isSome = true ∧ u.Price.isSome = true

instance parsesDecidable (u : OrderBookItem) : Decidable (parses u) := by
  unfold parses
  infer_instance

/-- The effect of one successfully applied update on the levels table. -/
def mStep (P : ℕ) (m : List (String × orderBookLevel)) (u : OrderBookItem) :
    List (String × orderBookLevel) :=
  match u.Volume, u.Price with
  | some v, some p =>
    if v = 0 then eraseKey (stringFixed p P) m
    else insertKey (stringFixed p P) ⟨p, p⟩ m
  | _, _ => m

/-- The state after a run of successfully applied updates: only the
levels table changes, by folding `mStep` over the batch. -/
def applyAll (o : OrderBookSide) (us : List OrderBookItem) : OrderBookSide :=
  { o with m := us.foldl (mStep o.pricePrecision) o.m }

theorem applyUpdate_ok_of_parses (o : OrderBookSide) (u : OrderBookItem)
    (h : parses u) :
    applyUpdate o u = .ok { o with m := mStep o.pricePrecision o.m u } := by
  obtain ⟨hv, hp⟩ := h
  obtain ⟨v, hv⟩ := Option.isSome_iff_exists.mp hv
  obtain ⟨p, hp⟩ := Option.isSome_iff_exists.mp hp
  unfold applyUpdate mStep
  rw [hv, hp]
  by_cases h0 : v = 0
  · simp [h0]
  · simp [h0]

theorem applyUpdate_error_of_not_parses (o : OrderBookSide) (u : OrderBookItem)
    (h : ¬ parses u) : ∃ e, applyUpdate o u = .error e := by
  unfold parses at h
  unfold applyUpdate
  cases hv : u.Volume with
  | none => exact ⟨"invalid volume", rfl⟩
  | some v =>
    cases hp : u.Price with
    | none => exact ⟨"invalid price", rfl⟩
    | some p =>
      exfalso
      exact h ⟨by rw [hv]; rfl, by rw [hp]; rfl⟩

theorem parses_of_applyUpdate_ok (o o1 : OrderBookSide) (u : OrderBookItem)
    (h : applyUpdate o u = .ok o1) : parses u := by
  by_contra hc
  obtain ⟨e, he⟩ := applyUpdate_error_of_not_parses o u hc
  rw [he] at h
  exact Except.noConfusion h

theorem applyAll_nil (o : OrderBookSide) : applyAll o [] = o := rfl

theorem applyAll_cons (o : OrderBookSide) (u : OrderBookItem)
    (us : List OrderBookItem) :
    applyAll o (u :: us) = applyAll { o with m := mStep o.pricePrecision o.m u } us := by
  simp [applyAll, List.foldl_cons]

theorem applyLoop_ok_of_parses (o : OrderBookSide) (us : List OrderBookItem)
    (h : ∀ u ∈ us, parses u) : applyLoop o us = (applyAll o us, none) := by
  induction us generalizing o with
  | nil => rfl
  | cons u rest ih =>
    have hu : parses u := h u (List.mem_cons_self u rest)
    have hrest : ∀ v ∈ rest, parses v := fun v hv => h v (List.mem_cons_of_mem u hv)
    rw [applyAll_cons]
    show (match applyUpdate o u with
      | .ok o1 => applyLoop o1 rest
      | .error e => (o, some e)) = _
    rw [applyUpdate_ok_of_parses o u hu]
    exact ih _ hrest

theorem parses_of_applyLoop_none (o o1 : OrderBookSide) (us : List OrderBookItem)
    (h : applyLoop o us = (o1, none)) : ∀ u ∈ us, parses u := by
  induction us generalizing o with
  | nil => intro u hu; cases hu
  | cons u rest ih =>
    intro v hv
    have hloop : (match applyUpdate o u with
        | .ok o2 => applyLoop o2 rest
        | .error e => (o, some e)) = (o1, none) := h
    cases ha : applyUpdate o u with
    | error e =>
      rw [ha] at hloop
      simp at hloop
    | ok o2 =>
      rw [ha] at hloop
      rcases List.mem_cons.mp hv with hv1 | hv1
      · rw [hv1]
        exact parses_of_applyUpdate_ok o o2 u ha
      · exact ih o2 hloop v hv1

theorem applyLoop_of_applyLoop_none (o o1 : OrderBookSide) (us : List OrderBookItem)
    (h : applyLoop o us = (o1, none)) : o1 = applyAll o us := by
  have := applyLoop_ok_of_parses o us (parses_of_applyLoop_none o o1 us h)
  rw [this] at h
  exact (Prod.mk.injEq _ _ _ _ ▸ h).1.symm

theorem applyLoop_append_of_parses (o : OrderBookSide) (us tail : List OrderBookItem)
    (h : ∀ u ∈ us, parses u) :
    applyLoop o (us ++ tail) = applyLoop (applyAll o us) tail := by
  induction us generalizing o with
  | nil => rfl
  | cons u rest ih =>
    have hu : parses u := h u (List.mem_cons_self u rest)
    have hrest : ∀ v ∈ rest, parses v := fun v hv => h v (List.mem_cons_of_mem u hv)
    rw [applyAll_cons]
    show (match applyUpdate o u with
      | .ok o1 => applyLoop o1 (rest ++ tail)
      | .error e => (o, some e)) = _
    rw [applyUpdate_ok_of_parses o u hu]
    exact ih _ hrest

/-! Claim C6: partial application, fail fast, no resort. -/

/-- C6: when every update before `bad` parses and `bad` does not, the
batch stops at `bad` and propagates its error; the final state is
exactly the fold of the preceding updates over the levels table (the
following updates are never applied), and the sorted view is left
unchanged because the resort and eviction step never runs. -/
theorem applyUpdates_stops_at_first_failure
    (o : OrderBookSide) (us1 us2 : List OrderBookItem) (bad : OrderBookItem)
    (h1 : ∀ u ∈ us1, parses u) (h2 : ¬ parses bad) :
    ∃ e, applyLoop o (us1 ++ bad :: us2) = (applyAll o us1, some e) ∧
      applyUpdates o (us1 ++ bad :: us2) = .parseError (applyAll o us1) e ∧
      (applyAll o us1).sorted = o.sorted ∧
      (applyAll o us1).m = us1.foldl (mStep o.pricePrecision) o.m := by
  obtain ⟨e, he⟩ := applyUpdate_error_of_not_parses (applyAll o us1) bad h2
  refine ⟨e, ?_, ?_, rfl, rfl⟩
  · rw [applyLoop_append_of_parses o us1 (bad :: us2) h1]
    show (match applyUpdate (applyAll o us1) bad with
      | .ok o1 => applyLoop o1 us2
      | .error e => (applyAll o us1, some e)) = _
    rw [he]
  · unfold applyUpdates
    rw [applyLoop_append_of_parses o us1 (bad :: us2) h1]
    show (match (match applyUpdate (applyAll o us1) bad with
      | .ok o1 => applyLoop o1 us2
      | .error e => (applyAll o us1, some e)) with
      | (o1, some e) => BatchResult.parseError o1 e
      | (o1, none) => _) = _
    rw [he]

/-- Witness for C6: a one-update prefix that parses, then an update
whose price text does not parse; the batch error is propagated with the
prefix applied and the sorted view untouched. -/
theorem applyUpdates_stops_at_first_failure_witness :
    (∀ u ∈ [({ Price := some 1, Volume := some 2 } : OrderBookItem)], parses u) ∧
      ¬ parses { Price := none, Volume := some 1 } ∧
      ∃ e, applyLoop (newOrderBookSide 1 2 2 true)
          ([{ Price := some 1, Volume := some 2 }] ++
            { Price := none, Volume := some 1 } :: []) =
          (applyAll (newOrderBookSide 1 2 2 true) [{ Price := some 1, Volume := some 2 }],
            some e) ∧
        applyUpdates (newOrderBookSide 1 2 2 true)
          ([{ Price := some 1, Volume := some 2 }] ++
            { Price := none, Volume := some 1 } :: []) =
          .parseError
            (applyAll (newOrderBookSide 1 2 2 true) [{ Price := some 1, Volume := some 2 }])
            e ∧
        (applyAll (newOrderBookSide 1 2 2 true) [{ Price := some 1, Volume := some 2 }]).sorted =
          (newOrderBookSide 1 2 2 true).sorted ∧
        (applyAll (newOrderBookSide 1 2 2 true) [{ Price := some 1, Volume := some 2 }]).m =
          [{ Price := some 1, Volume := some 2 }].foldl
            (mStep (newOrderBookSide 1 2 2 true).pricePrecision)
            (newOrderBookSide 1 2 2 true).m :=
  ⟨by decide, by decide,
    applyUpdates_stops_at_first_failure (newOrderBookSide 1 2 2 true)
      [{ Price := some 1, Volume := some 2 }] [] { Price := none, Volume := some 1 }
      (by decide) (by decide)⟩

/-! Inversion of a normally completed batch. -/

/-- The eviction loop of `applyUpdates`: delete the canonical key of
every level in `ls` from the table. -/
def evictAll (P : ℕ) (m : List (String × orderBookLevel)) (ls : List orderBookLevel) :
    List (String × orderBookLevel) :=
  ls.foldl (fun m level => eraseKey (stringFixed level.Price P) m) m

theorem applyUpdates_ok_inversion (o o1 : OrderBookSide) (us : List OrderBookItem)
    (h : applyUpdates o us = .ok o1) :
    (∀ u ∈ us, parses u) ∧
      o.depth ≤ (newOrderBookLevels (applyAll o us).m o.isAsk).length ∧
      o1 = { applyAll o us with
             m := evictAll o.pricePrecision (applyAll o us).m
               ((newOrderBookLevels (applyAll o us).m o.isAsk).drop o.depth),
             sorted := (newOrderBookLevels (applyAll o us).m o.isAsk).take o.depth } := by
  unfold applyUpdates at h
  rcases hl : applyLoop o us with ⟨o2, err⟩
  rw [hl] at h
  cases err with
  | some e => simp at h
  | none =>
    have ho2 : o2 = applyAll o us := applyLoop_of_applyLoop_none o o2 us hl
    have hpar : ∀ u ∈ us, parses u := parses_of_applyLoop_none o o2 us hl
    subst ho2
    simp only at h
    by_cases hd : (applyAll o us).depth ≤
        (newOrderBookLevels (applyAll o us).m (applyAll o us).isAsk).length
    · rw [if_pos hd] at h
      refine ⟨hpar, hd, ?_⟩
      exact (BatchResult.ok.inj h).symm
    · rw [if_neg hd] at h
      exact absurd h (by intro hh; exact BatchResult.noConfusion hh)

/-! Claim C5: the view is ordered best-first. -/

instance levelLeTotal (asc : Bool) : IsTotal orderBookLevel (levelLe asc) where
  total a b := by
    unfold levelLe
    cases asc
    · simpa using le_total b.Price a.Price
    · simpa using le_total a.Price b.Price

instance levelLeTrans (asc : Bool) : IsTrans orderBookLevel (levelLe asc) where
  trans a b c hab hbc := by
    unfold levelLe at hab hbc ⊢
    cases asc
    · simp only [if_neg Bool.false_ne_true] at hab hbc ⊢
      exact le_trans hbc hab
    · simp only [if_pos rfl] at hab hbc ⊢
      exact le_trans hab hbc

theorem newOrderBookLevels_sorted (m : List (String × orderBookLevel)) (asc : Bool) :
    List.Sorted (levelLe asc) (newOrderBookLevels m asc) :=
  List.sorted_insertionSort (levelLe asc) (m.map Prod.snd)

theorem newOrderBookLevels_perm (m : List (String × orderBookLevel)) (asc : Bool) :
    (newOrderBookLevels m asc).Perm (m.map Prod.snd) :=
  List.perm_insertionSort (levelLe asc) (m.map Prod.snd)

/-- C5: after a normally completed batch the visible view is ordered
best-first: each adjacent pair is non-decreasing in price on the ask
side and non-increasing on the bid side (`levelLe o1.isAsk`). -/
theorem sortedView_ordered (o o1 : OrderBookSide) (us : List OrderBookItem)
    (h : applyUpdates o us = .ok o1) :
    List.Chain' (levelLe o1.isAsk) o1.sorted := by
  obtain ⟨-, -, ho1⟩ := applyUpdates_ok_inversion o o1 us h
  subst ho1
  have hs : List.Sorted (levelLe o.isAsk) (newOrderBookLevels (applyAll o us).m o.isAsk) :=
    newOrderBookLevels_sorted _ _
  have ht : List.Sorted (levelLe o.isAsk)
      ((newOrderBookLevels (applyAll o us).m o.isAsk).take o.depth) :=
    List.Pairwise.sublist (List.take_sublist _ _) hs
  exact List.Pairwise.chain' ht

/-- Witness for C5: an ask side of depth 2 receiving prices 2 and 1;
the resulting view is [1, 2], ordered ascending. -/
theorem sortedView_ordered_witness :
    applyUpdates (newOrderBookSide 2 2 2 true)
        [{ Price := some 2, Volume := some 5 }, { Price := some 1, Volume := some 5 }] =
      .ok ⟨[("2.00", ⟨2, 2⟩), ("1.00", ⟨1, 1⟩)], [⟨1, 1⟩, ⟨2, 2⟩], 2, 2, 2, true⟩ ∧
      List.Chain'
        (levelLe (⟨[("2.00", ⟨2, 2⟩), ("1.00", ⟨1, 1⟩)], [⟨1, 1⟩, ⟨2, 2⟩], 2, 2, 2, true⟩ :
          OrderBookSide).isAsk)
        (⟨[("2.00", ⟨2, 2⟩), ("1.00", ⟨1, 1⟩)], [⟨1, 1⟩, ⟨2, 2⟩], 2, 2, 2, true⟩ :
          OrderBookSide).sorted :=
  ⟨by decide,
    sortedView_ordered (newOrderBookSide 2 2 2 true) _
      [{ Price := some 2, Volume := some 5 }, { Price := some 1, Volume := some 5 }]
      (by decide)⟩

/-! Well-formed states: every reachable table binds each level under its
own canonical key, and keys are unique (Go map semantics). -/

/-- The canonical key of a level: its price formatted at the price
precision (the key under which `applyUpdate` stores it). -/
def keyOf (P : ℕ) (level : orderBookLevel) : String :=
  stringFixed level.Price P

/-- Every binding of the table binds a level under its canonical key. -/
def Coherent (P : ℕ) (m : List (String × orderBookLevel)) : Prop :=
  ∀ kv ∈ m, kv.1 = keyOf P kv.2

/-- The table binds each key at most once (Go map semantics). -/
def NodupKeys (m : List (String × orderBookLevel)) : Prop :=
  (m.map Prod.fst).Nodup

/-- Well-formed side: the invariant of every state reachable from
`newOrderBookSide` through the operations. -/
def WF (o : OrderBookSide) : Prop :=
  Coherent o.pricePrecision o.m ∧ NodupKeys o.m

instance wfDecidable (o : OrderBookSide) : Decidable (WF o) := by
  unfold WF Coherent NodupKeys
  infer_instance

theorem coherent_eraseKey (P : ℕ) (k : String) (m : List (String × orderBookLevel))
    (h : Coherent P m) : Coherent P (eraseKey k m) :=
  fun kv hkv => h kv ((mem_eraseKey k m kv).mp hkv).1

theorem coherent_insertKey (P : ℕ) (v : orderBookLevel)
    (m : List (String × orderBookLevel)) (h : Coherent P m) :
    Coherent P (insertKey (keyOf P v) v m) := by
  intro kv hkv
  rcases mem_insertKey _ _ _ _ hkv with h1 | h1
  · rw [h1]
  · exact h kv h1

theorem mem_keys_insertKey (k k1 : String) (v : orderBookLevel)
    (m : List (String × orderBookLevel)) :
    k1 ∈ (insertKey k v m).map Prod.fst ↔ k1 = k ∨ k1 ∈ m.map Prod.fst := by
  induction m with
  | nil => simp [insertKey]
  | cons kv rest ih =>
    by_cases hk : kv.1 = k
    · simp [insertKey, hk]
    · simp [insertKey, hk, ih]
      tauto

theorem nodupKeys_insertKey (k : String) (v : orderBookLevel)
    (m : List (String × orderBookLevel)) (h : NodupKeys m) :
    NodupKeys (insertKey k v m) := by
  induction m with
  | nil => simp [NodupKeys, insertKey]
  | cons kv rest ih =>
    unfold NodupKeys at h ⊢
    rw [List.map_cons, List.nodup_cons] at h
    by_cases hk : kv.1 = k
    · simp only [insertKey, if_pos hk, List.map_cons, List.nodup_cons]
      exact ⟨by rw [← hk]; exact h.1, h.2⟩
    · simp only [insertKey, if_neg hk, List.map_cons, List.nodup_cons]
      refine ⟨?_, ih h.2⟩
      intro hmem
      rcases (mem_keys_insertKey k kv.1 v rest).mp hmem with h1 | h1
      · exact hk h1
      · exact h.1 h1

theorem nodupKeys_eraseKey (k : String) (m : List (String × orderBookLevel))
    (h : NodupKeys m) : NodupKeys (eraseKey k m) :=
  List.Nodup.sublist (List.Sublist.map Prod.fst (eraseKey_sublist k m)) h

theorem coherent_mStep (P : ℕ) (m : List (String × orderBookLevel))
    (u : OrderBookItem) (h : Coherent P m) : Coherent P (mStep P m u) := by
  unfold mStep
  cases hv : u.Volume with
  | none => exact h
  | some v =>
    cases hp : u.Price with
    | none => exact h
    | some p =>
      by_cases h0 : v = 0
      · simpa [h0] using coherent_eraseKey P _ m h
      · simpa [h0] using coherent_insertKey P ⟨p, p⟩ m h

theorem nodupKeys_mStep (P : ℕ) (m : List (String × orderBookLevel))
    (u : OrderBookItem) (h : NodupKeys m) : NodupKeys (mStep P m u) := by
  unfold mStep
  cases hv : u.Volume with
  | none => exact h
  | some v =>
    cases hp : u.Price with
    | none => exact h
    | some p =>
      by_cases h0 : v = 0
      · simpa [h0] using nodupKeys_eraseKey _ m h
      · simpa [h0] using nodupKeys_insertKey _ ⟨p, p⟩ m h

theorem coherent_foldl_mStep (P : ℕ) (m : List (String × orderBookLevel))
    (us : List OrderBookItem) (h : Coherent P m) :
    Coherent P (us.foldl (mStep P) m) := by
  induction us generalizing m with
  | nil => exact h
  | cons u rest ih => exact ih _ (coherent_mStep P m u h)

theorem nodupKeys_foldl_mStep (P : ℕ) (m : List (String × orderBookLevel))
    (us : List OrderBookItem) (h : NodupKeys m) :
    NodupKeys (us.foldl (mStep P) m) := by
  induction us generalizing m with
  | nil => exact h
  | cons u rest ih => exact ih _ (nodupKeys_mStep P m u h)

theorem wf_applyAll (o : OrderBookSide) (us : List OrderBookItem) (h : WF o) :
    WF (applyAll o us) :=
  ⟨coherent_foldl_mStep _ _ _ h.1, nodupKeys_foldl_mStep _ _ _ h.2⟩

theorem evictAll_sublist (P : ℕ) (m : List (String × orderBookLevel))
    (ls : List orderBookLevel) : (evictAll P m ls).Sublist m := by
  induction ls generalizing m with
  | nil => exact List.Sublist.refl m
  | cons l rest ih =>
    exact List.Sublist.trans (ih (eraseKey (stringFixed l.Price P) m))
      (eraseKey_sublist _ m)

theorem mem_evictAll (P : ℕ) (m : List (String × orderBookLevel))
    (ls : List orderBookLevel) (kv : String × orderBookLevel) :
    kv ∈ evictAll P m ls ↔ kv ∈ m ∧ kv.1 ∉ ls.map (keyOf P) := by
  induction ls generalizing m with
  | nil => simp [evictAll]
  | cons l rest ih =>
    show kv ∈ evictAll P (eraseKey (stringFixed l.Price P) m) rest ↔ _
    rw [ih]
    simp [mem_eraseKey, keyOf]
    tauto

/-! Claim C3: depth bound and no stale levels after a completed batch. -/

/-- C3: after a normally completed batch, the visible view holds at most
`depth` levels, and every level still bound in the table appears in the
view — the levels evicted at the depth boundary were also deleted from
the table. -/
theorem applyUpdates_depth_bound_and_no_stale (o o1 : OrderBookSide)
    (us : List OrderBookItem) (hwf : WF o) (h : applyUpdates o us = .ok o1) :
    o1.sorted.length ≤ o.depth ∧ ∀ kv ∈ o1.m, kv.2 ∈ o1.sorted := by
  obtain ⟨hpar, hd, ho1⟩ := applyUpdates_ok_inversion o o1 us h
  subst ho1
  constructor
  · simp only [List.length_take]
    exact min_le_left _ _
  · intro kv hkv
    have hco : Coherent o.pricePrecision (applyAll o us).m :=
      (wf_applyAll o us hwf).1
    rw [mem_evictAll] at hkv
    obtain ⟨hmem, hnot⟩ := hkv
    have hkey : kv.1 = keyOf o.pricePrecision kv.2 := hco kv hmem
    have hval : kv.2 ∈ newOrderBookLevels (applyAll o us).m o.isAsk := by
      have h1 : kv.2 ∈ (applyAll o us).m.map Prod.snd :=
        List.mem_map_of_mem Prod.snd hmem
      exact ((newOrderBookLevels_perm (applyAll o us).m o.isAsk).mem_iff).mpr h1
    rw [← List.take_append_drop o.depth
      (newOrderBookLevels (applyAll o us).m o.isAsk)] at hval
    rcases List.mem_append.mp hval with h1 | h1
    · exact h1
    · exfalso
      apply hnot
      rw [hkey]
      exact List.mem_map_of_mem (keyOf o.pricePrecision) h1

/-- Witness for C3: depth 1 with two distinct prices; the worse level is
evicted from both the view and the table. -/
theorem applyUpdates_depth_bound_and_no_stale_witness :
    (WF (newOrderBookSide 1 2 2 true) ∧
      applyUpdates (newOrderBookSide 1 2 2 true)
          [{ Price := some 1, Volume := some 5 }, { Price := some 2, Volume := some 5 }] =
        .ok ⟨[("1.00", ⟨1, 1⟩)], [⟨1, 1⟩], 1, 2, 2, true⟩) ∧
      (⟨[("1.00", ⟨1, 1⟩)], [⟨1, 1⟩], 1, 2, 2, true⟩ : OrderBookSide).sorted.length ≤
          (newOrderBookSide 1 2 2 true).depth ∧
        ∀ kv ∈ (⟨[("1.00", ⟨1, 1⟩)], [⟨1, 1⟩], 1, 2, 2, true⟩ : OrderBookSide).m,
          kv.2 ∈ (⟨[("1.00", ⟨1, 1⟩)], [⟨1, 1⟩], 1, 2, 2, true⟩ : OrderBookSide).sorted :=
  ⟨⟨by decide, by decide⟩,
    applyUpdates_depth_bound_and_no_stale (newOrderBookSide 1 2 2 true) _
      [{ Price := some 1, Volume := some 5 }, { Price := some 2, Volume := some 5 }]
      (by decide) (by decide)⟩

/-! Toward claim C9: lookup characterization of insert-only batches. -/

theorem mem_of_lookupKey_some (k : String) (v : orderBookLevel)
    (m : List (String × orderBookLevel)) (h : lookupKey k m = some v) :
    (k, v) ∈ m := by
  induction m with
  | nil => exact Option.noConfusion h
  | cons kv rest ih =>
    by_cases hk : kv.1 = k
    · simp only [lookupKey, if_pos hk] at h
      have : kv = (k, v) := Prod.ext hk (Option.some.inj h)
      rw [← this]
      exact List.mem_cons_self kv rest
    · simp only [lookupKey, if_neg hk] at h
      exact List.mem_cons_of_mem kv (ih h)

theorem lookupKey_of_mem_nodup (m : List (String × orderBookLevel))
    (kv : String × orderBookLevel) (hmem : kv ∈ m) (hnd : NodupKeys m) :
    lookupKey kv.1 m = some kv.2 := by
  induction m with
  | nil => cases hmem
  | cons kv0 rest ih =>
    unfold NodupKeys at hnd
    rw [List.map_cons, List.nodup_cons] at hnd
    rcases List.mem_cons.mp hmem with h1 | h1
    · rw [h1]
      simp [lookupKey]
    · have hk : kv0.1 ≠ kv.1 := by
        intro hh
        apply hnd.1
        rw [hh]
        exact List.mem_map_of_mem Prod.fst h1
      simp only [lookupKey, if_neg hk]
      exact ih h1 hnd.2

theorem eq_of_mem_same_key (m : List (String × orderBookLevel))
    (kv kv1 : String × orderBookLevel) (hnd : NodupKeys m)
    (h1 : kv ∈ m) (h2 : kv1 ∈ m) (hk : kv.1 = kv1.1) : kv = kv1 := by
  have e1 := lookupKey_of_mem_nodup m kv h1 hnd
  have e2 := lookupKey_of_mem_nodup m kv1 h2 hnd
  rw [hk] at e1
  rw [e1] at e2
  exact Prod.ext hk (Option.some.inj e2)

/-- The parsed price of an update (0 as a default for the proof-side
helpers; only used under the hypothesis that the update parses). -/
def uprice (u : OrderBookItem) : ℚ := u.Price.getD 0

/-- The key an update writes to. -/
def ukey (P : ℕ) (u : OrderBookItem) : String := stringFixed (uprice u) P

/-- The level an update stores (the line-89 slip included: both fields
hold the price). -/
def ulvl (u : OrderBookItem) : orderBookLevel := ⟨uprice u, uprice u⟩

/-- The level stored by the last update of `us` writing key `k`, if any. -/
def lastLevel (P : ℕ) (us : List OrderBookItem) (k : String) : Option orderBookLevel :=
  us.foldl (fun acc u => if ukey P u = k then some (ulvl u) else acc) none

theorem lastLevel_foldl_acc (P : ℕ) (k : String) (us : List OrderBookItem)
    (acc : Option orderBookLevel) :
    us.foldl (fun acc u => if ukey P u = k then some (ulvl u) else acc) acc =
      match lastLevel P us k with
      | some l => some l
      | none => acc := by
  induction us generalizing acc with
  | nil => simp [lastLevel]
  | cons u rest ih =>
    show rest.foldl _ (if ukey P u = k then some (ulvl u) else acc) = _
    rw [ih]
    have hcons : lastLevel P (u :: rest) k =
        match lastLevel P rest k with
        | some l => some l
        | none => if ukey P u = k then some (ulvl u) else none := by
      show rest.foldl _ (if ukey P u = k then some (ulvl u) else none) = _
      rw [ih]
    rw [hcons]
    cases lastLevel P rest k with
    | some l => rfl
    | none =>
      by_cases hu : ukey P u = k
      · simp [hu]
      · simp [hu]

theorem mStep_eq_insert (P : ℕ) (m : List (String × orderBookLevel))
    (u : OrderBookItem) (hp : parses u) (hz : u.Volume ≠ some 0) :
    mStep P m u = insertKey (ukey P u) (ulvl u) m := by
  obtain ⟨hv, hpr⟩ := hp
  obtain ⟨v, hv⟩ := Option.isSome_iff_exists.mp hv
  obtain ⟨p, hpr⟩ := Option.isSome_iff_exists.mp hpr
  have h0 : v ≠ 0 := by
    intro hh
    apply hz
    rw [hv, hh]
  unfold mStep ukey ulvl uprice
  rw [hv, hpr]
  simp [h0]

theorem lookupKey_foldl_mStep (P : ℕ) (k : String) (us : List OrderBookItem)
    (hall : ∀ u ∈ us, parses u ∧ u.Volume ≠ some 0) :
    ∀ m, lookupKey k (us.foldl (mStep P) m) =
      match lastLevel P us k with
      | some l => some l
      | none => lookupKey k m := by
  induction us with
  | nil => intro m; simp [lastLevel]
  | cons u rest ih =>
    intro m
    have hu := hall u (List.mem_cons_self u rest)
    have hrest : ∀ v ∈ rest, parses v ∧ v.Volume ≠ some 0 :=
      fun v hv => hall v (List.mem_cons_of_mem u hv)
    rw [List.foldl_cons, ih hrest, mStep_eq_insert P m u hu.1 hu.2]
    have hcons : lastLevel P (u :: rest) k =
        match lastLevel P rest k with
        | some l => some l
        | none => if ukey P u = k then some (ulvl u) else none := by
      show rest.foldl _ (if ukey P u = k then some (ulvl u) else none) = _
      rw [lastLevel_foldl_acc]
    rw [hcons]
    cases lastLevel P rest k with
    | some l => rfl
    | none =>
      rw [lookupKey_insertKey]
      by_cases hu1 : ukey P u = k
      · simp [hu1]
      · simp [hu1]

/-! Distinct prices in a well-formed table, and antisymmetry of the side
comparator on prices. -/

theorem values_pairwise_price_ne (P : ℕ) (m : List (String × orderBookLevel))
    (hco : Coherent P m) (hnd : NodupKeys m) :
    (m.map Prod.snd).Pairwise (fun a b => a.Price ≠ b.Price) := by
  induction m with
  | nil => simp
  | cons kv rest ih =>
    unfold NodupKeys at hnd
    rw [List.map_cons, List.nodup_cons] at hnd
    have hcorest : Coherent P rest := fun kv1 h1 => hco kv1 (List.mem_cons_of_mem kv h1)
    rw [List.map_cons, List.pairwise_cons]
    refine ⟨?_, ih hcorest hnd.2⟩
    intro b hb heq
    obtain ⟨kv1, hkv1, hsnd⟩ := List.mem_map.mp hb
    apply hnd.1
    have e1 : kv.1 = keyOf P kv.2 := hco kv (List.mem_cons_self kv rest)
    have e2 : kv1.1 = keyOf P kv1.2 := hcorest kv1 hkv1
    have e3 : keyOf P kv.2 = keyOf P kv1.2 := by
      unfold keyOf
      rw [← hsnd] at heq
      rw [heq]
    rw [e1, e3, ← e2]
    exact List.mem_map_of_mem Prod.fst hkv1

theorem levelLe_antisymm_price (asc : Bool) (a b : orderBookLevel)
    (h1 : levelLe asc a b) (h2 : levelLe asc b a) : a.Price = b.Price := by
  unfold levelLe at h1 h2
  cases asc
  · simp only [if_neg Bool.false_ne_true] at h1 h2
    exact le_antisymm h2 h1
  · simp only [if_pos rfl] at h1 h2
    exact le_antisymm h1 h2

/-- Prefix determinacy of sorting: if a sorted list `M` is a permutation
of `A ++ R`, where `A` is strictly sorted (by the side comparator, with
pairwise distinct prices) and every element of `R` is strictly worse
than every element of `A`, then the first `A.length` elements of `M` are
exactly `A`. -/
theorem take_eq_of_sorted_perm (asc : Bool) :
    ∀ (A M R : List orderBookLevel),
      List.Sorted (levelLe asc) M →
      List.Pairwise (fun a b => levelLe asc a b ∧ a.Price ≠ b.Price) A →
      M.Perm (A ++ R) →
      (∀ a ∈ A, ∀ r ∈ R, levelLe asc a r ∧ a.Price ≠ r.Price) →
      M.take A.length = A := by
  intro A
  induction A with
  | nil =>
    intro M R _ _ _ _
    simp
  | cons a A1 ih =>
    intro M R hM hA hperm hcross
    rw [List.cons_append] at hperm
    have haM : a ∈ M := hperm.mem_iff.mpr (List.mem_cons_self a (A1 ++ R))
    cases M with
    | nil => exact absurd haM (List.not_mem_nil a)
    | cons m M1 =>
      have hmin : ∀ x ∈ M1, levelLe asc m x := fun x hx => List.rel_of_pairwise_cons hM hx
      have hM1sorted : List.Sorted (levelLe asc) M1 := (List.pairwise_cons.mp hM).2
      have hmAR : m ∈ a :: (A1 ++ R) := hperm.mem_iff.mp (List.mem_cons_self m M1)
      have hma : m = a := by
        rcases List.mem_cons.mp hmAR with h1 | h1
        · exact h1
        · rcases List.mem_cons.mp haM with h2 | h2
          · exact h2.symm
          · exfalso
            have h3 : levelLe asc m a := hmin a h2
            have h4 : levelLe asc a m ∧ a.Price ≠ m.Price := by
              rcases List.mem_append.mp h1 with h5 | h5
              · exact List.rel_of_pairwise_cons hA h5
              · exact hcross a (List.mem_cons_self a A1) m h5
            exact h4.2 (levelLe_antisymm_price asc a m h4.1 h3)
      subst hma
      have hperm1 : M1.Perm (A1 ++ R) := List.Perm.cons_inv hperm
      have ihA := ih M1 R hM1sorted (List.pairwise_cons.mp hA).2 hperm1
        (fun x hx r hr => hcross x (List.mem_cons_of_mem _ hx) r hr)
      simp only [List.length_cons, List.take_succ_cons, ihA]

theorem checksum_congr (o o1 : OrderBookSide) (hs : o.sorted = o1.sorted)
    (hp : o.pricePrecision = o1.pricePrecision)
    (hv : o.volumePrecision = o1.volumePrecision) :
    checksum o = checksum o1 := by
  unfold checksum
  rw [hs, hp, hv]

theorem lookupKey_foldl_mStep_some (P : ℕ) (k : String) (us : List OrderBookItem)
    (hall : ∀ u ∈ us, parses u ∧ u.Volume ≠ some 0) (l : orderBookLevel)
    (hll : lastLevel P us k = some l) (m : List (String × orderBookLevel)) :
    lookupKey k (us.foldl (mStep P) m) = some l := by
  rw [lookupKey_foldl_mStep P k us hall m, hll]

theorem lookupKey_foldl_mStep_none (P : ℕ) (k : String) (us : List OrderBookItem)
    (hall : ∀ u ∈ us, parses u ∧ u.Volume ≠ some 0)
    (hll : lastLevel P us k = none) (m : List (String × orderBookLevel)) :
    lookupKey k (us.foldl (mStep P) m) = lookupKey k m := by
  rw [lookupKey_foldl_mStep P k us hall m, hll]

/-- Forward form of the normal completion of a batch: when every update
parses and at least `depth` levels exist after the update loop, the
batch returns the resorted, evicted state. -/
theorem applyUpdates_eq_ok (o : OrderBookSide) (us : List OrderBookItem)
    (hpar : ∀ u ∈ us, parses u)
    (hd : (applyAll o us).depth ≤
      (newOrderBookLevels (applyAll o us).m (applyAll o us).isAsk).length) :
    applyUpdates o us = .ok { applyAll o us with
      m := evictAll (applyAll o us).pricePrecision (applyAll o us).m
        ((newOrderBookLevels (applyAll o us).m (applyAll o us).isAsk).drop
          (applyAll o us).depth),
      sorted := (newOrderBookLevels (applyAll o us).m (applyAll o us).isAsk).take
        (applyAll o us).depth } := by
  unfold applyUpdates
  rw [applyLoop_ok_of_parses o us hpar]
  simp only
  rw [if_pos hd]
  rfl

/-! Claim C9: applying a batch twice gives the same view and checksum. -/

/-- C9: from a well-formed state, re-applying a batch with no
zero-volume updates right after it completed normally completes normally
again, with an identical sorted view and an identical checksum byte
sequence. -/
theorem applyUpdates_idempotent (o o1 : OrderBookSide) (us : List OrderBookItem)
    (hwf : WF o) (hvol : ∀ u ∈ us, u.Volume ≠ some 0)
    (h1 : applyUpdates o us = .ok o1) :
    ∃ o2, applyUpdates o1 us = .ok o2 ∧ o2.sorted = o1.sorted ∧
      checksum o2 = checksum o1 := by
  obtain ⟨hpar, hd, ho1⟩ := applyUpdates_ok_inversion o o1 us h1
  subst ho1
  set mA := (applyAll o us).m with hmAdef
  set lvs := newOrderBookLevels mA o.isAsk with hlvsdef
  set A := lvs.take o.depth with hAdef
  set D := lvs.drop o.depth with hDdef
  set m1 := evictAll o.pricePrecision mA D with hm1def
  set B := us.foldl (mStep o.pricePrecision) m1 with hBdef
  have hpz : ∀ u ∈ us, parses u ∧ u.Volume ≠ some 0 := fun u hu => ⟨hpar u hu, hvol u hu⟩
  have hwfA : WF (applyAll o us) := wf_applyAll o us hwf
  have hcoA : Coherent o.pricePrecision mA := hwfA.1
  have hndA : NodupKeys mA := hwfA.2
  have hperm1 : lvs.Perm (mA.map Prod.snd) := newOrderBookLevels_perm mA o.isAsk
  have hvalsne : (mA.map Prod.snd).Pairwise (fun a b => a.Price ≠ b.Price) :=
    values_pairwise_price_ne o.pricePrecision mA hcoA hndA
  have hlvlne : lvs.Pairwise (fun a b => a.Price ≠ b.Price) :=
    (List.Perm.pairwise_iff (fun h => h.symm) hperm1).mpr hvalsne
  have hlvlsorted : List.Sorted (levelLe o.isAsk) lvs := newOrderBookLevels_sorted mA o.isAsk
  have hlvlstrict : lvs.Pairwise (fun a b => levelLe o.isAsk a b ∧ a.Price ≠ b.Price) :=
    List.Pairwise.and hlvlsorted hlvlne
  have hlvlnodup : lvs.Nodup :=
    List.Pairwise.imp (fun h he => h (by rw [he])) hlvlne
  have hsplitAD : A ++ D = lvs := List.take_append_drop o.depth lvs
  have hAstrict : A.Pairwise (fun a b => levelLe o.isAsk a b ∧ a.Price ≠ b.Price) :=
    List.Pairwise.sublist (List.take_sublist o.depth lvs) hlvlstrict
  have hAnodup : A.Nodup := List.Nodup.sublist (List.take_sublist o.depth lvs) hlvlnodup
  have hAlen : A.length = o.depth := by
    rw [hAdef, List.length_take]
    exact min_eq_left hd
  have hADnodup : (A ++ D).Nodup := by rw [hsplitAD]; exact hlvlnodup
  have hADdisj : A.Disjoint D := (List.nodup_append.mp hADnodup).2.2
  have hcrossAD : ∀ a ∈ A, ∀ b ∈ D, levelLe o.isAsk a b ∧ a.Price ≠ b.Price := by
    have hp := List.pairwise_append.mp (by rw [hsplitAD]; exact hlvlstrict)
    exact hp.2.2
  have hm1sub : m1.Sublist mA := evictAll_sublist o.pricePrecision mA D
  have hco1 : Coherent o.pricePrecision m1 := fun kv hkv => hcoA kv (hm1sub.subset hkv)
  have hnd1 : NodupKeys m1 := List.Nodup.sublist (List.Sublist.map Prod.fst hm1sub) hndA
  have hcoB : Coherent o.pricePrecision B := coherent_foldl_mStep o.pricePrecision m1 us hco1
  have hndB : NodupKeys B := nodupKeys_foldl_mStep o.pricePrecision m1 us hnd1
  have hBne : (B.map Prod.snd).Pairwise (fun a b => a.Price ≠ b.Price) :=
    values_pairwise_price_ne o.pricePrecision B hcoB hndB
  have hBnodup : (B.map Prod.snd).Nodup :=
    List.Pairwise.imp (fun h he => h (by rw [he])) hBne
  have hmAfold : mA = us.foldl (mStep o.pricePrecision) o.m := rfl
  have hAX : ∀ a ∈ A, a ∈ B.map Prod.snd := by
    intro a ha
    have ha1 : a ∈ lvs := (List.take_sublist o.depth lvs).subset ha
    have ha2 : a ∈ mA.map Prod.snd := hperm1.mem_iff.mp ha1
    obtain ⟨kv, hkvmem, hkvsnd⟩ := List.mem_map.mp ha2
    have hkvkey : kv.1 = keyOf o.pricePrecision kv.2 := hcoA kv hkvmem
    have hnotev : kv.1 ∉ D.map (keyOf o.pricePrecision) := by
      intro hin
      obtain ⟨b, hbD, hbkey⟩ := List.mem_map.mp hin
      have hb1 : b ∈ lvs := (List.drop_sublist o.depth lvs).subset hbD
      have hb2 : b ∈ mA.map Prod.snd := hperm1.mem_iff.mp hb1
      obtain ⟨kvb, hkvbmem, hkvbsnd⟩ := List.mem_map.mp hb2
      have hkvbkey : kvb.1 = keyOf o.pricePrecision kvb.2 := hcoA kvb hkvbmem
      have hkk : kv.1 = kvb.1 := by
        rw [hkvbkey, hkvbsnd, hbkey]
      have hkveq : kv = kvb := eq_of_mem_same_key mA kv kvb hndA hkvmem hkvbmem hkk
      have hab : a = b := by rw [← hkvsnd, hkveq, hkvbsnd]
      have haD : a ∈ D := by rw [hab]; exact hbD
      exact hADdisj ha haD
    have hkvm1 : kv ∈ m1 := (mem_evictAll o.pricePrecision mA D kv).mpr ⟨hkvmem, hnotev⟩
    have hlk1 : lookupKey kv.1 m1 = some kv.2 := lookupKey_of_mem_nodup m1 kv hkvm1 hnd1
    have hlkA : lookupKey kv.1 mA = some kv.2 := lookupKey_of_mem_nodup mA kv hkvmem hndA
    cases hll : lastLevel o.pricePrecision us kv.1 with
    | none =>
      have hB1 : lookupKey kv.1 B = lookupKey kv.1 m1 :=
        lookupKey_foldl_mStep_none o.pricePrecision kv.1 us hpz hll m1
      have hmem : (kv.1, kv.2) ∈ B :=
        mem_of_lookupKey_some kv.1 kv.2 B (by rw [hB1, hlk1])
      have h2 := List.mem_map_of_mem Prod.snd hmem
      rw [← hkvsnd]
      exact h2
    | some l =>
      have hB1 : lookupKey kv.1 B = some l :=
        lookupKey_foldl_mStep_some o.pricePrecision kv.1 us hpz l hll m1
      have hA1 : lookupKey kv.1 (us.foldl (mStep o.pricePrecision) o.m) = some l :=
        lookupKey_foldl_mStep_some o.pricePrecision kv.1 us hpz l hll o.m
      rw [← hmAfold] at hA1
      rw [hlkA] at hA1
      have hl : l = kv.2 := (Option.some.inj hA1).symm
      have hmem : (kv.1, l) ∈ B := mem_of_lookupKey_some kv.1 l B hB1
      have h2 := List.mem_map_of_mem Prod.snd hmem
      rw [← hkvsnd, ← hl]
      exact h2
  have hXA : ∀ x ∈ B.map Prod.snd, x ∈ mA.map Prod.snd := by
    intro x hx
    obtain ⟨kv, hkvmem, hkvsnd⟩ := List.mem_map.mp hx
    have hlkB : lookupKey kv.1 B = some kv.2 := lookupKey_of_mem_nodup B kv hkvmem hndB
    cases hll : lastLevel o.pricePrecision us kv.1 with
    | some l =>
      have hB1 : lookupKey kv.1 B = some l :=
        lookupKey_foldl_mStep_some o.pricePrecision kv.1 us hpz l hll m1
      have hkl : kv.2 = l := Option.some.inj (hlkB.symm.trans hB1)
      have hA1 : lookupKey kv.1 (us.foldl (mStep o.pricePrecision) o.m) = some l :=
        lookupKey_foldl_mStep_some o.pricePrecision kv.1 us hpz l hll o.m
      rw [← hmAfold] at hA1
      have hmem : (kv.1, l) ∈ mA := mem_of_lookupKey_some kv.1 l mA hA1
      have h2 := List.mem_map_of_mem Prod.snd hmem
      rw [← hkvsnd, hkl]
      exact h2
    | none =>
      have hB1 : lookupKey kv.1 B = lookupKey kv.1 m1 :=
        lookupKey_foldl_mStep_none o.pricePrecision kv.1 us hpz hll m1
      rw [hlkB] at hB1
      have hmem : (kv.1, kv.2) ∈ m1 := mem_of_lookupKey_some kv.1 kv.2 m1 hB1.symm
      have hmem2 : (kv.1, kv.2) ∈ mA := hm1sub.subset hmem
      have h2 := List.mem_map_of_mem Prod.snd hmem2
      rw [← hkvsnd]
      exact h2
  have hsp : A.Subperm (B.map Prod.snd) := List.subperm_of_subset hAnodup hAX
  have hlen2 : o.depth ≤ (newOrderBookLevels B o.isAsk).length := by
    have h6 := hsp.length_le
    rw [hAlen] at h6
    rw [(newOrderBookLevels_perm B o.isAsk).length_eq]
    exact h6
  obtain ⟨l3, hl3perm, hl3sub⟩ := hsp
  obtain ⟨t, htperm⟩ := hl3sub.exists_perm_append
  have hXAt : (B.map Prod.snd).Perm (A ++ t) :=
    htperm.trans (List.Perm.append_right t hl3perm)
  have hAtnodup : (A ++ t).Nodup := hXAt.nodup hBnodup
  have hdisjAt : A.Disjoint t := (List.nodup_append.mp hAtnodup).2.2
  have hcrossAt : ∀ a ∈ A, ∀ r ∈ t, levelLe o.isAsk a r ∧ a.Price ≠ r.Price := by
    intro a ha r hr
    have hrX : r ∈ B.map Prod.snd := hXAt.mem_iff.mpr (List.mem_append.mpr (Or.inr hr))
    have hrA : r ∈ mA.map Prod.snd := hXA r hrX
    have hrlv : r ∈ lvs := hperm1.mem_iff.mpr hrA
    rw [← hsplitAD] at hrlv
    rcases List.mem_append.mp hrlv with h5 | h5
    · exact absurd hr (hdisjAt h5)
    · exact hcrossAD a ha r h5
  have hsorted2 : List.Sorted (levelLe o.isAsk) (newOrderBookLevels B o.isAsk) :=
    newOrderBookLevels_sorted B o.isAsk
  have hperm2 : (newOrderBookLevels B o.isAsk).Perm (A ++ t) :=
    (newOrderBookLevels_perm B o.isAsk).trans hXAt
  have hsplit2 := take_eq_of_sorted_perm o.isAsk A (newOrderBookLevels B o.isAsk) t
    hsorted2 hAstrict hperm2 hcrossAt
  rw [hAlen] at hsplit2
  have hcond2 : (applyAll { applyAll o us with m := m1, sorted := A } us).depth ≤
      (newOrderBookLevels (applyAll { applyAll o us with m := m1, sorted := A } us).m
        (applyAll { applyAll o us with m := m1, sorted := A } us).isAsk).length := by
    have e1 : (applyAll { applyAll o us with m := m1, sorted := A } us).depth = o.depth := rfl
    have e2 : (applyAll { applyAll o us with m := m1, sorted := A } us).isAsk = o.isAsk := rfl
    have e3 : (applyAll { applyAll o us with m := m1, sorted := A } us).m = B := rfl
    rw [e1, e2, e3]
    exact hlen2
  have hok2 := applyUpdates_eq_ok { applyAll o us with m := m1, sorted := A } us hpar hcond2
  refine ⟨_, hok2, ?_, ?_⟩
  · show (newOrderBookLevels B o.isAsk).take o.depth = A
    exact hsplit2
  · refine checksum_congr _ _ ?_ rfl rfl
    show (newOrderBookLevels B o.isAsk).take o.depth = A
    exact hsplit2

/-- Witness for C9 at a concrete fresh side and one-update batch:
re-applying the batch returns the same view and checksum. -/
theorem applyUpdates_idempotent_witness :
    (WF (newOrderBookSide 1 2 2 true) ∧
      (∀ u ∈ [({ Price := some 1, Volume := some 2 } : OrderBookItem)], u.Volume ≠ some 0) ∧
      applyUpdates (newOrderBookSide 1 2 2 true) [{ Price := some 1, Volume := some 2 }] =
        .ok ⟨[("1.00", ⟨1, 1⟩)], [⟨1, 1⟩], 1, 2, 2, true⟩) ∧
      ∃ o2, applyUpdates (⟨[("1.00", ⟨1, 1⟩)], [⟨1, 1⟩], 1, 2, 2, true⟩ : OrderBookSide)
          [{ Price := some 1, Volume := some 2 }] = .ok o2 ∧
        o2.sorted = (⟨[("1.00", ⟨1, 1⟩)], [⟨1, 1⟩], 1, 2, 2, true⟩ : OrderBookSide).sorted ∧
        checksum o2 =
          checksum (⟨[("1.00", ⟨1, 1⟩)], [⟨1, 1⟩], 1, 2, 2, true⟩ : OrderBookSide) :=
  ⟨⟨by decide, by decide, by decide⟩,
    applyUpdates_idempotent (newOrderBookSide 1 2 2 true) _
      [{ Price := some 1, Volume := some 2 }] (by decide) (by decide) (by decide)⟩

end GoKraken
